import Mathlib

/-!
Shallow embedding of the free-slot computation of
`backend/calendar_client.py` (class `CalendarClient`).

Timestamps are modelled as integers: minutes of Asia/Kolkata (IST)
wall-clock time counted from an arbitrary midnight.  Asia/Kolkata has a
fixed UTC offset and no daylight-saving transitions, so Python's
`datetime.hour` on such a timestamp is the hour of that wall clock,
`(t mod 1440) / 60`.

The two slot-stepping `while` loops of `find_available_slots` advance a
pointer by `duration_minutes`; in Python they do not terminate when
`duration_minutes <= 0`, so the embedding threads an explicit fuel and
returns `none` when the fuel is exhausted (the Python call would not
return).  A `some` result is exactly the list the Python function
returns.

`find_available_slots` in the source fetches its busy list through
`self.get_busy_times`; the embedding takes that list (the raw
`start`/`end` timestamp strings of each busy dict) as a parameter, which
is the input boundary the specification describes.
-/

namespace ScheduleAI

/-- Hour of day of an IST wall-clock timestamp given in minutes
(`slot_start.hour` in the source). -/
def hourOf (t : Int) : Int := (t % 1440) / 60

/-- One availability dict appended at lines 174-178 / 191-195 of
`calendar_client.py`: keys `start`, `end`, `duration_minutes`.  `end` is
a Lean keyword, so that field is called `stop`. -/
structure Slot where
  start : Int
  stop : Int
  duration_minutes : Int
deriving DecidableEq, Repr

/-- A timestamp string as consumed by `_parse_datetime_with_timezone`:
either it parses (to an IST minute count) or it is malformed. -/
inductive DtStr where
  | valid (t : Int)
  | malformed
deriving DecidableEq, Repr

/-- Embedding of `_parse_datetime_with_timezone` (lines 45-62): a parseable string is
normalized to IST; on a parse failure the `except` branch returns
`datetime.now(self.timezone)`, passed here as `now`. -/
def parse_datetime_with_timezone (now : Int) : DtStr → Int
  | .valid t => t
  | .malformed => now

/-- The business-hours test of lines 173 and 190:
`not business_hours_only or (9 <= slot_start.hour < 18)`. -/
def keepSlot (business_hours_only : Bool) (slot_start : Int) : Bool :=
  !business_hours_only ||
    (decide (9 ≤ hourOf slot_start) && decide (hourOf slot_start < 18))

/-- The slot-stepping `while` loop of lines 171-179 (and 188-196):
starting from `slot_start`, while `slot_start + duration <= bound`,
append the slot if the business-hours test passes and advance
`slot_start` by the duration.  `none` means the fuel ran out while the
loop was still running. -/
def generate_slots (business_hours_only : Bool) (duration_minutes bound : Int) :
    Nat → Int → Option (List Slot)
  | 0, slot_start =>
      if slot_start + duration_minutes ≤ bound then none else some []
  | fuel + 1, slot_start =>
      if slot_start + duration_minutes ≤ bound then
        (generate_slots business_hours_only duration_minutes bound fuel
            (slot_start + duration_minutes)).map
          (fun rest =>
            if keepSlot business_hours_only slot_start then
              { start := slot_start, stop := slot_start + duration_minutes,
                duration_minutes := duration_minutes } :: rest
            else rest)
      else some []

/-- One gap inspection (lines 165-179 before a busy period, lines
184-196 after the last one): if the cursor is strictly before `bound`
and the available minutes are at least the duration, run the stepping
loop. -/
def gap_slots (business_hours_only : Bool) (duration_minutes : Int) (fuel : Nat)
    (current_time bound : Int) : Option (List Slot) :=
  if current_time < bound then
    if duration_minutes ≤ bound - current_time then
      generate_slots business_hours_only duration_minutes bound fuel current_time
    else some []
  else some []

/-- The `for busy_start, busy_end in busy_periods` loop of lines
163-181: collect the slots of the gap before each busy period and
advance the cursor to `max(current_time, busy_end)`.  Returns the
collected slots together with the final cursor. -/
def scan_busy (business_hours_only : Bool) (duration_minutes : Int) (fuel : Nat) :
    List (Int × Int) → Int → Option (List Slot × Int)
  | [], current_time => some ([], current_time)
  | (busy_start, busy_end) :: rest, current_time =>
      match gap_slots business_hours_only duration_minutes fuel current_time busy_start with
      | none => none
      | some gs =>
          match scan_busy business_hours_only duration_minutes fuel rest
              (max current_time busy_end) with
          | none => none
          | some (tail, c') => some (gs ++ tail, c')

/-- Stable insertion of a busy period into a list sorted by start
time. -/
def insert_by_start (b : Int × Int) : List (Int × Int) → List (Int × Int)
  | [] => [b]
  | c :: l => if b.1 ≤ c.1 then b :: c :: l else c :: insert_by_start b l

/-- Embedding of `busy_periods.sort(key=lambda x: x[0])` of line 158: a stable sort
by start time. -/
def sort_by_start : List (Int × Int) → List (Int × Int)
  | [] => []
  | b :: l => insert_by_start b (sort_by_start l)

/-- Embedding of `find_available_slots` (lines 128-198) without the final `[:10]`
slice: parse every busy timestamp, sort the periods by start, scan the
gaps, then handle the region after the last busy period up to
`end_ist`. -/
def find_available_slots_all (fuel : Nat) (now start_ist end_ist : Int)
    (busy_times : List (DtStr × DtStr)) (duration_minutes : Int)
    (business_hours_only : Bool) : Option (List Slot) :=
  let busy_periods := busy_times.map (fun busy =>
    (parse_datetime_with_timezone now busy.1, parse_datetime_with_timezone now busy.2))
  match scan_busy business_hours_only duration_minutes fuel
      (sort_by_start busy_periods) start_ist with
  | none => none
  | some (available_slots, current_time) =>
      match gap_slots business_hours_only duration_minutes fuel current_time end_ist with
      | none => none
      | some tail => some (available_slots ++ tail)

/-- Embedding of `find_available_slots` (lines 128-198): the scan above followed by
`return available_slots[:10]` (line 198). -/
def find_available_slots (fuel : Nat) (now start_ist end_ist : Int)
    (busy_times : List (DtStr × DtStr)) (duration_minutes : Int)
    (business_hours_only : Bool) : Option (List Slot) :=
  (find_available_slots_all fuel now start_ist end_ist busy_times duration_minutes
      business_hours_only).map
    (fun available_slots => available_slots.take 10)

/-- View numeric busy periods as busy dicts whose timestamp strings all
parse. -/
def validBusy (busy : List (Int × Int)) : List (DtStr × DtStr) :=
  busy.map (fun p => (DtStr.valid p.1, DtStr.valid p.2))

/-- The stepping loop with the business-hours conditional removed:
every stepped slot is appended.  Used to state that with
`business_hours_only = False` no slot is excluded by the predicate. -/
def generate_slots_unfiltered (duration_minutes bound : Int) :
    Nat → Int → Option (List Slot)
  | 0, slot_start =>
      if slot_start + duration_minutes ≤ bound then none else some []
  | fuel + 1, slot_start =>
      if slot_start + duration_minutes ≤ bound then
        (generate_slots_unfiltered duration_minutes bound fuel
            (slot_start + duration_minutes)).map
          (fun rest =>
            { start := slot_start, stop := slot_start + duration_minutes,
              duration_minutes := duration_minutes } :: rest)
      else some []

/-- One gap inspection without the business-hours predicate. -/
def gap_slots_unfiltered (duration_minutes : Int) (fuel : Nat)
    (current_time bound : Int) : Option (List Slot) :=
  if current_time < bound then
    if duration_minutes ≤ bound - current_time then
      generate_slots_unfiltered duration_minutes bound fuel current_time
    else some []
  else some []

/-- The busy-period loop without the business-hours predicate. -/
def scan_busy_unfiltered (duration_minutes : Int) (fuel : Nat) :
    List (Int × Int) → Int → Option (List Slot × Int)
  | [], current_time => some ([], current_time)
  | (busy_start, busy_end) :: rest, current_time =>
      match gap_slots_unfiltered duration_minutes fuel current_time busy_start with
      | none => none
      | some gs =>
          match scan_busy_unfiltered duration_minutes fuel rest
              (max current_time busy_end) with
          | none => none
          | some (tail, c') => some (gs ++ tail, c')

/-- The slot finder with the business-hours predicate removed
altogether. -/
def find_available_slots_unfiltered (fuel : Nat) (now start_ist end_ist : Int)
    (busy_times : List (DtStr × DtStr)) (duration_minutes : Int) :
    Option (List Slot) :=
  let busy_periods := busy_times.map (fun busy =>
    (parse_datetime_with_timezone now busy.1, parse_datetime_with_timezone now busy.2))
  ((match scan_busy_unfiltered duration_minutes fuel
      (sort_by_start busy_periods) start_ist with
  | none => none
  | some (available_slots, current_time) =>
      match gap_slots_unfiltered duration_minutes fuel current_time end_ist with
      | none => none
      | some tail => some (available_slots ++ tail) : Option (List Slot))).map
    (fun available_slots => available_slots.take 10)

/-- Folding a pair of overlapping busy periods into their union.  This
definition follows the specification's words for the pre-merge
strategy of §4.1 ("pre-merge overlapping intervals as an equivalent,
simpler strategy"), not the source, which has no such pass: scanning a
sorted busy list, two consecutive periods that overlap are replaced by
their union. -/
def merge_into (cur : Int × Int) : List (Int × Int) → List (Int × Int)
  | [] => [cur]
  | b :: rest =>
      if b.1 < cur.2 ∧ cur.1 < b.2 then
        merge_into (cur.1, max cur.2 b.2) rest
      else
        cur :: merge_into b rest

/-- Pre-merging of the overlapping busy periods of a list sorted by
start time into their unions (specification §4.1's alternative
strategy). -/
def merge_overlapping : List (Int × Int) → List (Int × Int)
  | [] => []
  | b :: rest => merge_into b rest

/-- Replacing a timestamp string by the value the parser would produce
for it: a parseable string stays itself, a malformed one becomes the
substituted current time. -/
def substitute_malformed (now : Int) (d : DtStr) : DtStr :=
  DtStr.valid (parse_datetime_with_timezone now d)

/-- With a non-positive duration the stepping loop never leaves its
guard: once `slot_start + duration <= bound` holds it holds forever, so
every fuel is exhausted. -/
theorem generate_slots_none_of_nonpos (bho : Bool) (dur bound : Int)
    (hd : dur ≤ 0) :
    ∀ (fuel : Nat) (a : Int), a + dur ≤ bound →
      generate_slots bho dur bound fuel a = none := by
  intro fuel
  induction fuel with
  | zero => intro a h; simp [generate_slots, h]
  | succ fuel ih =>
      intro a h
      have h' : (a + dur) + dur ≤ bound := by omega
      simp [generate_slots, h, ih _ h']

/-- Every slot produced by the stepping loop starts at or after the
entry point, spans exactly the duration, ends at or before the bound,
and passed the business-hours test. -/
theorem generate_slots_mem (bho : Bool) (dur bound : Int) :
    ∀ (fuel : Nat) (a : Int) (gs : List Slot),
      generate_slots bho dur bound fuel a = some gs →
      ∀ g ∈ gs, a ≤ g.start ∧ g.stop = g.start + dur ∧
        g.duration_minutes = dur ∧ g.stop ≤ bound ∧
        (bho = true → 9 ≤ hourOf g.start ∧ hourOf g.start < 18) := by
  intro fuel
  induction fuel with
  | zero =>
      intro a gs h g hg
      by_cases hc : a + dur ≤ bound
      · simp [generate_slots, hc] at h
      · simp [generate_slots, hc] at h
        subst h
        simp at hg
  | succ fuel ih =>
      intro a gs h g hg
      by_cases hc : a + dur ≤ bound
      · rcases le_or_lt dur 0 with hd | hd
        · have hnone : generate_slots bho dur bound fuel (a + dur) = none :=
            generate_slots_none_of_nonpos bho dur bound hd fuel _ (by omega)
          simp [generate_slots, hc, hnone] at h
        · rw [generate_slots, if_pos hc, Option.map_eq_some'] at h
          obtain ⟨rest, hrest, hgs⟩ := h
          by_cases hk : keepSlot bho a
          · rw [if_pos hk] at hgs
            subst hgs
            rcases List.mem_cons.mp hg with hg | hg
            · subst hg
              refine ⟨le_refl a, rfl, rfl, hc, ?_⟩
              intro hbho
              subst hbho
              simpa [keepSlot] using hk
            · obtain ⟨h1, h2, h3, h4, h5⟩ := ih (a + dur) rest hrest g hg
              exact ⟨by omega, h2, h3, h4, h5⟩
          · rw [if_neg hk] at hgs
            subst hgs
            obtain ⟨h1, h2, h3, h4, h5⟩ := ih (a + dur) rest hrest g hg
            exact ⟨by omega, h2, h3, h4, h5⟩
      · simp [generate_slots, hc] at h
        subst h
        simp at hg

/-- Slots produced by one run of the stepping loop have non-decreasing
start times. -/
theorem generate_slots_pairwise (bho : Bool) (dur bound : Int) (hd : 1 ≤ dur) :
    ∀ (fuel : Nat) (a : Int) (gs : List Slot),
      generate_slots bho dur bound fuel a = some gs →
      gs.Pairwise (fun x y => x.start ≤ y.start) := by
  intro fuel
  induction fuel with
  | zero =>
      intro a gs h
      by_cases hc : a + dur ≤ bound
      · simp [generate_slots, hc] at h
      · simp [generate_slots, hc] at h
        subst h
        exact List.Pairwise.nil
  | succ fuel ih =>
      intro a gs h
      by_cases hc : a + dur ≤ bound
      · rw [generate_slots, if_pos hc, Option.map_eq_some'] at h
        obtain ⟨rest, hrest, hgs⟩ := h
        have hrestpw := ih (a + dur) rest hrest
        by_cases hk : keepSlot bho a
        · rw [if_pos hk] at hgs
          subst hgs
          refine List.Pairwise.cons ?_ hrestpw
          intro y hy
          have := (generate_slots_mem bho dur bound fuel (a + dur) rest hrest y hy).1
          simp only
          omega
        · rw [if_neg hk] at hgs
          subst hgs
          exact hrestpw
      · simp [generate_slots, hc] at h
        subst h
        exact List.Pairwise.nil

/-- Facts about the slots of a single gap inspection. -/
theorem gap_slots_mem (bho : Bool) (dur : Int) (fuel : Nat) (c bound : Int)
    (gs : List Slot) (h : gap_slots bho dur fuel c bound = some gs) :
    ∀ g ∈ gs, c ≤ g.start ∧ g.stop = g.start + dur ∧
      g.duration_minutes = dur ∧ g.stop ≤ bound ∧
      (bho = true → 9 ≤ hourOf g.start ∧ hourOf g.start < 18) := by
  intro g hg
  by_cases h1 : c < bound
  · by_cases h2 : dur ≤ bound - c
    · rw [gap_slots, if_pos h1, if_pos h2] at h
      exact generate_slots_mem bho dur bound fuel c gs h g hg
    · rw [gap_slots, if_pos h1, if_neg h2] at h
      obtain rfl : ([] : List Slot) = gs := Option.some.inj h
      simp at hg
  · rw [gap_slots, if_neg h1] at h
    obtain rfl : ([] : List Slot) = gs := Option.some.inj h
    simp at hg

/-- A gap's slots have non-decreasing start times. -/
theorem gap_slots_pairwise (bho : Bool) (dur : Int) (fuel : Nat) (c bound : Int)
    (hd : 1 ≤ dur) (gs : List Slot) (h : gap_slots bho dur fuel c bound = some gs) :
    gs.Pairwise (fun x y => x.start ≤ y.start) := by
  by_cases h1 : c < bound
  · by_cases h2 : dur ≤ bound - c
    · rw [gap_slots, if_pos h1, if_pos h2] at h
      exact generate_slots_pairwise bho dur bound hd fuel c gs h
    · rw [gap_slots, if_pos h1, if_neg h2] at h
      obtain rfl : ([] : List Slot) = gs := Option.some.inj h
      exact List.Pairwise.nil
  · rw [gap_slots, if_neg h1] at h
    obtain rfl : ([] : List Slot) = gs := Option.some.inj h
    exact List.Pairwise.nil

/-- Master invariant of the busy-period loop: the cursor never moves
backwards, it ends at or after every busy end, and every collected slot
starts at or after the entry cursor, spans exactly the duration, passes
the business-hours test, and ends at or before the start of some busy
period of the list. -/
theorem scan_busy_spec (bho : Bool) (dur : Int) (fuel : Nat) :
    ∀ (l : List (Int × Int)) (c : Int) (out : List Slot) (c' : Int),
      scan_busy bho dur fuel l c = some (out, c') →
      c ≤ c' ∧ (∀ p ∈ l, p.2 ≤ c') ∧
      (∀ g ∈ out, c ≤ g.start ∧ g.stop = g.start + dur ∧
        g.duration_minutes = dur ∧
        (bho = true → 9 ≤ hourOf g.start ∧ hourOf g.start < 18) ∧
        ∃ p ∈ l, g.stop ≤ p.1) := by
  intro l
  induction l with
  | nil =>
      intro c out c' h
      rw [scan_busy] at h
      obtain ⟨rfl, rfl⟩ : ([] : List Slot) = out ∧ c = c' := by
        have := Option.some.inj h
        exact ⟨congrArg Prod.fst this, congrArg Prod.snd this⟩
      refine ⟨le_refl c, by simp, by simp⟩
  | cons b rest ih =>
      obtain ⟨s, e⟩ := b
      intro c out c' h
      rw [scan_busy] at h
      cases hgap : gap_slots bho dur fuel c s with
      | none => rw [hgap] at h; cases h
      | some gs =>
          rw [hgap] at h
          cases hscan : scan_busy bho dur fuel rest (max c e) with
          | none => rw [hscan] at h; cases h
          | some pr =>
              obtain ⟨tail, cMid⟩ := pr
              rw [hscan] at h
              obtain ⟨h1, h2⟩ : gs ++ tail = out ∧ cMid = c' := by
                have := Option.some.inj h
                exact ⟨congrArg Prod.fst this, congrArg Prod.snd this⟩
              subst h1; subst h2
              obtain ⟨ihc, ihend, ihslot⟩ := ih (max c e) tail cMid hscan
              have hce : c ≤ cMid := le_trans (le_max_left c e) ihc
              refine ⟨hce, ?_, ?_⟩
              · intro p hp
                rcases List.mem_cons.mp hp with hp | hp
                · subst hp
                  exact le_trans (le_max_right c e) ihc
                · exact ihend p hp
              · intro g hg
                rcases List.mem_append.mp hg with hg | hg
                · obtain ⟨g1, g2, g3, g4, g5⟩ := gap_slots_mem bho dur fuel c s gs hgap g hg
                  exact ⟨g1, g2, g3, g5, ⟨(s, e), List.mem_cons_self _ _, g4⟩⟩
                · obtain ⟨g1, g2, g3, g4, p, hp, hps⟩ := ihslot g hg
                  exact ⟨le_trans (le_max_left c e) g1, g2, g3, g4,
                    p, List.mem_cons_of_mem _ hp, hps⟩

/-- When the processed list is sorted by start time, no collected slot
overlaps any busy period of the list: a slot emitted before busy period
`i` ends at or before `i`'s start (hence at or before every later
start), and starts at or after every earlier busy end, which the cursor
has already passed. -/
theorem scan_busy_no_overlap (bho : Bool) (dur : Int) (fuel : Nat) :
    ∀ (l : List (Int × Int)) (c : Int) (out : List Slot) (c' : Int),
      l.Pairwise (fun a b => a.1 ≤ b.1) →
      scan_busy bho dur fuel l c = some (out, c') →
      ∀ g ∈ out, ∀ p ∈ l, ¬ (g.start < p.2 ∧ p.1 < g.stop) := by
  intro l
  induction l with
  | nil => intro c out c' _ h g hg p hp; simp at hp
  | cons b rest ih =>
      obtain ⟨s, e⟩ := b
      intro c out c' hsorted h g hg p hp
      rw [scan_busy] at h
      cases hgap : gap_slots bho dur fuel c s with
      | none => rw [hgap] at h; cases h
      | some gs =>
          rw [hgap] at h
          cases hscan : scan_busy bho dur fuel rest (max c e) with
          | none => rw [hscan] at h; cases h
          | some pr =>
              obtain ⟨tail, cMid⟩ := pr
              rw [hscan] at h
              obtain ⟨h1, h2⟩ : gs ++ tail = out ∧ cMid = c' := by
                have := Option.some.inj h
                exact ⟨congrArg Prod.fst this, congrArg Prod.snd this⟩
              subst h1; subst h2
              rcases List.pairwise_cons.mp hsorted with ⟨hhead, hrest⟩
              rcases List.mem_append.mp hg with hg | hg
              · have hstop : g.stop ≤ s :=
                  (gap_slots_mem bho dur fuel c s gs hgap g hg).2.2.2.1
                rcases List.mem_cons.mp hp with hp | hp
                · subst hp
                  intro hover
                  exact absurd hover.2 (by omega)
                · have hs : s ≤ p.1 := hhead p hp
                  intro hover
                  exact absurd hover.2 (by omega)
              · rcases List.mem_cons.mp hp with hp | hp
                · subst hp
                  have hge : max c e ≤ g.start :=
                    ((scan_busy_spec bho dur fuel rest (max c e) tail cMid
                      hscan).2.2 g hg).1
                  have he : e ≤ g.start := le_trans (le_max_right c e) hge
                  intro hover
                  exact absurd hover.1 (by omega)
                · exact ih (max c e) tail cMid hrest hscan g hg p hp

/-- When the busy periods are sorted by start and well-formed
(`start <= end`) and the duration is positive, the collected slots have
non-decreasing start times and all end at or before the final cursor. -/
theorem scan_busy_sorted (bho : Bool) (dur : Int) (fuel : Nat) (hd : 1 ≤ dur) :
    ∀ (l : List (Int × Int)) (c : Int) (out : List Slot) (c' : Int),
      l.Pairwise (fun a b => a.1 ≤ b.1) →
      (∀ p ∈ l, p.1 ≤ p.2) →
      scan_busy bho dur fuel l c = some (out, c') →
      out.Pairwise (fun x y => x.start ≤ y.start) ∧ ∀ g ∈ out, g.stop ≤ c' := by
  intro l
  induction l with
  | nil =>
      intro c out c' _ _ h
      rw [scan_busy] at h
      obtain ⟨rfl, rfl⟩ : ([] : List Slot) = out ∧ c = c' := by
        have := Option.some.inj h
        exact ⟨congrArg Prod.fst this, congrArg Prod.snd this⟩
      exact ⟨List.Pairwise.nil, by simp⟩
  | cons b rest ih =>
      obtain ⟨s, e⟩ := b
      intro c out c' hsorted hwf h
      rw [scan_busy] at h
      cases hgap : gap_slots bho dur fuel c s with
      | none => rw [hgap] at h; cases h
      | some gs =>
          rw [hgap] at h
          cases hscan : scan_busy bho dur fuel rest (max c e) with
          | none => rw [hscan] at h; cases h
          | some pr =>
              obtain ⟨tail, cMid⟩ := pr
              rw [hscan] at h
              obtain ⟨h1, h2⟩ : gs ++ tail = out ∧ cMid = c' := by
                have := Option.some.inj h
                exact ⟨congrArg Prod.fst this, congrArg Prod.snd this⟩
              subst h1; subst h2
              rcases List.pairwise_cons.mp hsorted with ⟨_, hrest⟩
              have hwfhead : s ≤ e := hwf (s, e) (List.mem_cons_self _ _)
              have hwfrest : ∀ p ∈ rest, p.1 ≤ p.2 :=
                fun p hp => hwf p (List.mem_cons_of_mem _ hp)
              obtain ⟨ihpw, ihstop⟩ := ih (max c e) tail cMid hrest hwfrest hscan
              obtain ⟨_, _, ihslot⟩ :=
                scan_busy_spec bho dur fuel rest (max c e) tail cMid hscan
              have hcross : ∀ x ∈ gs, ∀ y ∈ tail, x.start ≤ y.start := by
                intro x hx y hy
                have hxs : x.stop ≤ s :=
                  (gap_slots_mem bho dur fuel c s gs hgap x hx).2.2.2.1
                have hxd : x.stop = x.start + dur :=
                  (gap_slots_mem bho dur fuel c s gs hgap x hx).2.1
                have hys : max c e ≤ y.start := (ihslot y hy).1
                have hey : e ≤ y.start := le_trans (le_max_right c e) hys
                omega
              refine ⟨List.pairwise_append.mpr
                ⟨gap_slots_pairwise bho dur fuel c s hd gs hgap, ihpw, hcross⟩, ?_⟩
              intro g hg
              rcases List.mem_append.mp hg with hg | hg
              · have hgs : g.stop ≤ s :=
                  (gap_slots_mem bho dur fuel c s gs hgap g hg).2.2.2.1
                have hcm : max c e ≤ cMid :=
                  (scan_busy_spec bho dur fuel rest (max c e) tail cMid hscan).1
                have : e ≤ cMid := le_trans (le_max_right c e) hcm
                omega
              · exact ihstop g hg

/-- When every busy period starts at or before the cursor, the loop
collects nothing and only advances the cursor. -/
theorem scan_busy_no_gap (bho : Bool) (dur : Int) (fuel : Nat) :
    ∀ (l : List (Int × Int)) (c : Int), (∀ p ∈ l, p.1 ≤ c) →
      ∃ c', scan_busy bho dur fuel l c = some ([], c') ∧ c ≤ c' := by
  intro l
  induction l with
  | nil => intro c _; exact ⟨c, rfl, le_refl c⟩
  | cons b rest ih =>
      obtain ⟨s, e⟩ := b
      intro c hle
      have hs : s ≤ c := hle (s, e) (List.mem_cons_self _ _)
      have hrest : ∀ p ∈ rest, p.1 ≤ max c e := fun p hp =>
        le_trans (hle p (List.mem_cons_of_mem _ hp)) (le_max_left c e)
      obtain ⟨c', hc', hle'⟩ := ih (max c e) hrest
      refine ⟨c', ?_, le_trans (le_max_left c e) hle'⟩
      rw [scan_busy, gap_slots, if_neg (by omega), hc']
      rfl

/-- Insertion produces a permutation of the cons. -/
theorem insert_by_start_perm (b : Int × Int) :
    ∀ l : List (Int × Int), (insert_by_start b l).Perm (b :: l) := by
  intro l
  induction l with
  | nil => exact List.Perm.refl _
  | cons c l ih =>
      rw [insert_by_start]
      by_cases hbc : b.1 ≤ c.1
      · rw [if_pos hbc]
      · rw [if_neg hbc]
        exact List.Perm.trans (List.Perm.cons c ih) (List.Perm.swap b c l)

/-- The sort is a permutation of its input. -/
theorem sort_by_start_perm :
    ∀ l : List (Int × Int), (sort_by_start l).Perm l := by
  intro l
  induction l with
  | nil => exact List.Perm.refl _
  | cons b l ih =>
      exact List.Perm.trans (insert_by_start_perm b (sort_by_start l))
        (List.Perm.cons b ih)

/-- Insertion into a list sorted by start keeps it sorted by start. -/
theorem insert_by_start_pairwise (b : Int × Int) :
    ∀ l : List (Int × Int), l.Pairwise (fun x y => x.1 ≤ y.1) →
      (insert_by_start b l).Pairwise (fun x y => x.1 ≤ y.1) := by
  intro l
  induction l with
  | nil => intro _; simp [insert_by_start]
  | cons c l ih =>
      intro h
      rcases List.pairwise_cons.mp h with ⟨hc, hl⟩
      rw [insert_by_start]
      by_cases hbc : b.1 ≤ c.1
      · rw [if_pos hbc]
        refine List.pairwise_cons.mpr ⟨?_, h⟩
        intro y hy
        rcases List.mem_cons.mp hy with hy | hy
        · subst hy; exact hbc
        · exact le_trans hbc (hc y hy)
      · rw [if_neg hbc]
        refine List.pairwise_cons.mpr ⟨?_, ih hl⟩
        intro y hy
        rcases List.mem_cons.mp ((insert_by_start_perm b l).mem_iff.mp hy) with
          hy2 | hy2
        · subst hy2
          omega
        · exact hc y hy2

/-- The sorted busy list is sorted by start time. -/
theorem sort_by_start_pairwise :
    ∀ l : List (Int × Int),
      (sort_by_start l).Pairwise (fun x y => x.1 ≤ y.1) := by
  intro l
  induction l with
  | nil => exact List.Pairwise.nil
  | cons b l ih => exact insert_by_start_pairwise b (sort_by_start l) ih

/-- Inserting an element that precedes the whole list puts it in
front. -/
theorem insert_by_start_of_le (b : Int × Int) :
    ∀ l : List (Int × Int), (∀ c ∈ l, b.1 ≤ c.1) →
      insert_by_start b l = b :: l := by
  intro l
  induction l with
  | nil => intro _; rfl
  | cons c l _ =>
      intro h
      rw [insert_by_start, if_pos (h c (List.mem_cons_self _ _))]

/-- Sorting a list already sorted by start leaves it unchanged. -/
theorem sort_by_start_eq_self :
    ∀ l : List (Int × Int), l.Pairwise (fun x y => x.1 ≤ y.1) →
      sort_by_start l = l := by
  intro l
  induction l with
  | nil => intro _; rfl
  | cons b l ih =>
      intro h
      rcases List.pairwise_cons.mp h with ⟨hb, hl⟩
      rw [sort_by_start, ih hl, insert_by_start_of_le b l hb]

/-- Parsing the timestamp pairs of `validBusy busy` recovers `busy`. -/
theorem parse_validBusy (now : Int) (busy : List (Int × Int)) :
    (validBusy busy).map (fun b =>
      (parse_datetime_with_timezone now b.1, parse_datetime_with_timezone now b.2)) =
      busy := by
  rw [validBusy, List.map_map]
  exact (List.map_congr_left fun p _ => rfl).trans (List.map_id busy)

/-- Destructuring a successful run of the slot finder into its scan
phase and its closing gap. -/
theorem find_available_slots_all_some (fuel : Nat) (now start_ist end_ist : Int)
    (busy_times : List (DtStr × DtStr)) (dur : Int) (bho : Bool)
    (out : List Slot)
    (h : find_available_slots_all fuel now start_ist end_ist busy_times dur bho =
      some out) :
    ∃ slots c' tail,
      scan_busy bho dur fuel
        (sort_by_start (busy_times.map (fun b =>
          (parse_datetime_with_timezone now b.1,
            parse_datetime_with_timezone now b.2)))) start_ist = some (slots, c') ∧
      gap_slots bho dur fuel c' end_ist = some tail ∧
      out = slots ++ tail := by
  rw [find_available_slots_all] at h
  cases hscan : scan_busy bho dur fuel
      (sort_by_start (busy_times.map (fun b =>
        (parse_datetime_with_timezone now b.1,
          parse_datetime_with_timezone now b.2)))) start_ist with
  | none => rw [hscan] at h; cases h
  | some pr =>
      obtain ⟨slots, c'⟩ := pr
      rw [hscan] at h
      have h2 : (match gap_slots bho dur fuel c' end_ist with
          | none => none
          | some tail => some (slots ++ tail)) = some out := h
      cases hgap : gap_slots bho dur fuel c' end_ist with
      | none => rw [hgap] at h2; cases h2
      | some tail =>
          rw [hgap] at h2
          exact ⟨slots, c', tail, rfl, hgap, (Option.some.inj h2).symm⟩

/-- With `business_hours_only = False` the stepping loop keeps every
slot: it coincides with the unfiltered loop. -/
theorem generate_slots_false (dur bound : Int) :
    ∀ (fuel : Nat) (a : Int),
      generate_slots false dur bound fuel a =
        generate_slots_unfiltered dur bound fuel a := by
  intro fuel
  induction fuel with
  | zero => intro a; rfl
  | succ fuel ih =>
      intro a
      rw [generate_slots, generate_slots_unfiltered, ih]
      simp [keepSlot]

/-- With `business_hours_only = False` a gap inspection is
unfiltered. -/
theorem gap_slots_false (dur : Int) (fuel : Nat) (c bound : Int) :
    gap_slots false dur fuel c bound = gap_slots_unfiltered dur fuel c bound := by
  rw [gap_slots, gap_slots_unfiltered, generate_slots_false]

/-- With `business_hours_only = False` the busy-period loop is
unfiltered. -/
theorem scan_busy_false (dur : Int) (fuel : Nat) :
    ∀ (l : List (Int × Int)) (c : Int),
      scan_busy false dur fuel l c = scan_busy_unfiltered dur fuel l c := by
  intro l
  induction l with
  | nil => intro c; rfl
  | cons b rest ih =>
      obtain ⟨s, e⟩ := b
      intro c
      rw [scan_busy, scan_busy_unfiltered, gap_slots_false]
      simp only [ih]

/-- Scanning `cur :: l` and scanning the result of folding `cur` into
`l` by union collect the same slots and cursor: after a busy period is
processed the cursor sits at or beyond its end, so a following period
that overlaps it opens no gap and only pushes the cursor to the union's
end. -/
theorem scan_busy_merge_into (bho : Bool) (dur : Int) (fuel : Nat) :
    ∀ (l : List (Int × Int)) (cur : Int × Int) (c : Int),
      scan_busy bho dur fuel (cur :: l) c =
        scan_busy bho dur fuel (merge_into cur l) c := by
  intro l
  induction l with
  | nil => intro cur c; rfl
  | cons b rest ih =>
      obtain ⟨s2, e2⟩ := b
      intro cur c
      obtain ⟨s1, e1⟩ := cur
      rw [merge_into]
      by_cases hover : s2 < e1 ∧ s1 < e2
      · rw [if_pos hover, ← ih]
        simp only [scan_busy]
        cases hg : gap_slots bho dur fuel c s1 with
        | none => rfl
        | some gs =>
            have hgap2 : gap_slots bho dur fuel (max c e1) s2 = some [] := by
              rw [gap_slots, if_neg]
              have : e1 ≤ max c e1 := le_max_right c e1
              omega
            rw [hgap2]
            have hmax : max (max c e1) e2 = max c (max e1 e2) := max_assoc c e1 e2
            rw [hmax]
            cases hs : scan_busy bho dur fuel rest (max c (max e1 e2)) with
            | none => rfl
            | some pr =>
                obtain ⟨tail, cEnd⟩ := pr
                simp
      · rw [if_neg hover]
        conv_lhs => rw [scan_busy]
        conv_rhs => rw [scan_busy]
        rw [ih]

/-- Scanning a busy list and scanning its pre-merged form produce the
same outcome. -/
theorem scan_busy_merge (bho : Bool) (dur : Int) (fuel : Nat) :
    ∀ (l : List (Int × Int)) (c : Int),
      scan_busy bho dur fuel l c =
        scan_busy bho dur fuel (merge_overlapping l) c := by
  intro l c
  cases l with
  | nil => rfl
  | cons b rest => exact scan_busy_merge_into bho dur fuel rest b c

/-- Every start time in the merged list is a start time of the
input. -/
theorem merge_into_fst :
    ∀ (l : List (Int × Int)) (cur p : Int × Int),
      p ∈ merge_into cur l → p.1 = cur.1 ∨ ∃ q ∈ l, p.1 = q.1 := by
  intro l
  induction l with
  | nil =>
      intro cur p hp
      rw [merge_into] at hp
      left
      rw [List.mem_singleton.mp hp]
  | cons b rest ih =>
      intro cur p hp
      rw [merge_into] at hp
      by_cases hover : b.1 < cur.2 ∧ cur.1 < b.2
      · rw [if_pos hover] at hp
        rcases ih _ p hp with h1 | ⟨q, hq, h2⟩
        · left; exact h1
        · right; exact ⟨q, List.mem_cons_of_mem _ hq, h2⟩
      · rw [if_neg hover] at hp
        rcases List.mem_cons.mp hp with h1 | h1
        · left; rw [h1]
        · rcases ih b p h1 with h2 | ⟨q, hq, h3⟩
          · right; exact ⟨b, List.mem_cons_self _ _, h2⟩
          · right; exact ⟨q, List.mem_cons_of_mem _ hq, h3⟩

/-- Folding into unions keeps the list sorted by start time. -/
theorem merge_into_pairwise :
    ∀ (l : List (Int × Int)) (cur : Int × Int),
      List.Pairwise (fun x y => x.1 ≤ y.1) (cur :: l) →
      List.Pairwise (fun x y => x.1 ≤ y.1) (merge_into cur l) := by
  intro l
  induction l with
  | nil => intro cur _; simp [merge_into]
  | cons b rest ih =>
      intro cur h
      rcases List.pairwise_cons.mp h with ⟨hcur, hrest⟩
      rw [merge_into]
      by_cases hover : b.1 < cur.2 ∧ cur.1 < b.2
      · rw [if_pos hover]
        refine ih (cur.1, max cur.2 b.2) (List.pairwise_cons.mpr ⟨?_, ?_⟩)
        · intro y hy
          exact hcur y (List.mem_cons_of_mem _ hy)
        · exact (List.pairwise_cons.mp hrest).2
      · rw [if_neg hover]
        refine List.pairwise_cons.mpr ⟨?_, ih b hrest⟩
        intro y hy
        rcases merge_into_fst rest b y hy with h1 | ⟨q, hq, h2⟩
        · rw [h1]
          exact hcur b (List.mem_cons_self _ _)
        · rw [h2]
          exact hcur q (List.mem_cons_of_mem _ hq)

/-- Pre-merging keeps the list sorted by start time. -/
theorem merge_overlapping_pairwise (l : List (Int × Int))
    (h : List.Pairwise (fun x y => x.1 ≤ y.1) l) :
    List.Pairwise (fun x y => x.1 ≤ y.1) (merge_overlapping l) := by
  cases l with
  | nil => exact List.Pairwise.nil
  | cons b rest => exact merge_into_pairwise rest b h

/-- With a positive duration the stepping loop returns once the fuel
covers the length of the gap: every iteration moves the pointer at
least one minute toward the bound. -/
theorem generate_slots_isSome (bho : Bool) (dur bound : Int) (hd : 1 ≤ dur) :
    ∀ (fuel : Nat) (a : Int), (bound - a).toNat ≤ fuel →
      (generate_slots bho dur bound fuel a).isSome := by
  intro fuel
  induction fuel with
  | zero =>
      intro a h
      have hc : ¬ (a + dur ≤ bound) := by omega
      simp [generate_slots, hc]
  | succ fuel ih =>
      intro a h
      by_cases hc : a + dur ≤ bound
      · have h' : (bound - (a + dur)).toNat ≤ fuel := by omega
        rw [generate_slots, if_pos hc]
        have hs := ih (a + dur) h'
        cases hgen : generate_slots bho dur bound fuel (a + dur) with
        | none => rw [hgen] at hs; simp at hs
        | some gs => simp
      · simp [generate_slots, hc]

/-- A gap inspection returns once the fuel covers the gap length. -/
theorem gap_slots_isSome (bho : Bool) (dur : Int) (fuel : Nat) (c bound : Int)
    (hd : 1 ≤ dur) (h : (bound - c).toNat ≤ fuel) :
    (gap_slots bho dur fuel c bound).isSome := by
  by_cases h1 : c < bound
  · by_cases h2 : dur ≤ bound - c
    · rw [gap_slots, if_pos h1, if_pos h2]
      exact generate_slots_isSome bho dur bound hd fuel c h
    · simp [gap_slots, h1, h2]
  · simp [gap_slots, h1]

/-- The busy-period loop returns once the fuel covers every gap it can
open. -/
theorem scan_busy_isSome (bho : Bool) (dur : Int) (fuel : Nat) (hd : 1 ≤ dur) :
    ∀ (l : List (Int × Int)) (c : Int),
      (∀ p ∈ l, (p.1 - c).toNat ≤ fuel) →
      ∃ out c', scan_busy bho dur fuel l c = some (out, c') ∧ c ≤ c' := by
  intro l
  induction l with
  | nil => intro c _; exact ⟨[], c, rfl, le_refl c⟩
  | cons b rest ih =>
      obtain ⟨s, e⟩ := b
      intro c hl
      have hgap := gap_slots_isSome bho dur fuel c s hd
        (hl (s, e) (List.mem_cons_self _ _))
      obtain ⟨gs, hgs⟩ := Option.isSome_iff_exists.mp hgap
      have hrest : ∀ p ∈ rest, (p.1 - max c e).toNat ≤ fuel := by
        intro p hp
        have := hl p (List.mem_cons_of_mem _ hp)
        have : c ≤ max c e := le_max_left c e
        omega
      obtain ⟨tail, c', heq, hle⟩ := ih (max c e) hrest
      refine ⟨gs ++ tail, c', ?_, le_trans (le_max_left c e) hle⟩
      rw [scan_busy, hgs, heq]

/-- Every value of a function over a list is at most the folded maximum
of those values. -/
theorem le_foldr_max (f : Int × Int → Nat) :
    ∀ (l : List (Int × Int)) (p : Int × Int), p ∈ l →
      f p ≤ l.foldr (fun q m => max (f q) m) 0 := by
  intro l
  induction l with
  | nil => intro p hp; simp at hp
  | cons b rest ih =>
      intro p hp
      rcases List.mem_cons.mp hp with hp | hp
      · subst hp
        exact le_max_left _ _
      · exact le_trans (ih p hp) (le_max_right _ _)

/-- With `business_hours_only = False` the whole finder coincides with
the predicate-free finder. -/
theorem find_available_slots_false_eq (fuel : Nat) (now start_ist end_ist : Int)
    (busy_times : List (DtStr × DtStr)) (dur : Int) :
    find_available_slots fuel now start_ist end_ist busy_times dur false =
      find_available_slots_unfiltered fuel now start_ist end_ist busy_times dur := by
  simp only [find_available_slots, find_available_slots_all,
    find_available_slots_unfiltered, scan_busy_false, gap_slots_false]

/-- Claim C1: for every search window, busy-interval list and strictly
positive duration, every candidate slot returned by
`find_available_slots` is disjoint from every busy interval of the
input set.  Two half-open intervals `[a, b)` and `[c, d)` overlap when
`a < d` and `c < b`. -/
theorem find_available_slots_no_overlap
    (fuel : Nat) (now start_ist end_ist : Int) (busy : List (Int × Int))
    (dur : Int) (bho : Bool) (out : List Slot)
    (hdur : 1 ≤ dur)
    (h : find_available_slots fuel now start_ist end_ist (validBusy busy) dur
      bho = some out) :
    ∀ g ∈ out, ∀ p ∈ busy, ¬ (g.start < p.2 ∧ p.1 < g.stop) := by
  rw [find_available_slots, Option.map_eq_some'] at h
  obtain ⟨full, hfull, hout⟩ := h
  obtain ⟨slots, c', tail, hscan, hgap, hfulleq⟩ :=
    find_available_slots_all_some _ _ _ _ _ _ _ _ hfull
  rw [parse_validBusy] at hscan
  intro g hg p hp
  have hgfull : g ∈ full := by
    rw [← hout] at hg
    exact List.mem_of_mem_take hg
  rw [hfulleq] at hgfull
  have hpsorted : p ∈ sort_by_start busy := (sort_by_start_perm busy).mem_iff.mpr hp
  rcases List.mem_append.mp hgfull with hg2 | hg2
  · exact scan_busy_no_overlap bho dur fuel (sort_by_start busy) start_ist slots c'
      (sort_by_start_pairwise busy) hscan g hg2 p hpsorted
  · have hc : c' ≤ g.start :=
      (gap_slots_mem bho dur fuel c' end_ist tail hgap g hg2).1
    have hpe : p.2 ≤ c' :=
      (scan_busy_spec bho dur fuel (sort_by_start busy) start_ist slots c'
        hscan).2.1 p hpsorted
    intro hover
    omega

/-- Witness for C1 at a concrete input. -/
theorem find_available_slots_no_overlap_witness :
    1 ≤ (30 : Int) ∧
      ∀ g ∈ [Slot.mk 540 570 30, Slot.mk 570 600 30, Slot.mk 630 660 30,
        Slot.mk 660 690 30, Slot.mk 690 720 30],
        ∀ p ∈ [((600 : Int), (630 : Int))], ¬ (g.start < p.2 ∧ p.1 < g.stop) :=
  ⟨by decide,
    find_available_slots_no_overlap 8 0 540 720 [(600, 630)] 30 true _
      (by decide) (by decide)⟩

/-- Claim C6: every returned slot spans exactly the requested number of
minutes (and carries it in its `duration_minutes` field); no
partial-duration slot is ever returned. -/
theorem find_available_slots_exact_duration
    (fuel : Nat) (now start_ist end_ist : Int)
    (busy_times : List (DtStr × DtStr)) (dur : Int) (bho : Bool)
    (out : List Slot)
    (h : find_available_slots fuel now start_ist end_ist busy_times dur bho =
      some out) :
    ∀ g ∈ out, g.stop - g.start = dur ∧ g.duration_minutes = dur := by
  rw [find_available_slots, Option.map_eq_some'] at h
  obtain ⟨full, hfull, hout⟩ := h
  obtain ⟨slots, c', tail, hscan, hgap, hfulleq⟩ :=
    find_available_slots_all_some _ _ _ _ _ _ _ _ hfull
  intro g hg
  have hgfull : g ∈ full := by
    rw [← hout] at hg
    exact List.mem_of_mem_take hg
  rw [hfulleq] at hgfull
  rcases List.mem_append.mp hgfull with hg2 | hg2
  · obtain ⟨h1, h2, h3, h4, h5⟩ :=
      (scan_busy_spec bho dur fuel _ start_ist slots c' hscan).2.2 g hg2
    exact ⟨by omega, h3⟩
  · obtain ⟨h1, h2, h3, h4, h5⟩ :=
      gap_slots_mem bho dur fuel c' end_ist tail hgap g hg2
    exact ⟨by omega, h3⟩

/-- Witness for C6 at a concrete input. -/
theorem find_available_slots_exact_duration_witness :
    1 ≤ (30 : Int) ∧
      ∀ g ∈ [Slot.mk 540 570 30, Slot.mk 570 600 30, Slot.mk 630 660 30,
        Slot.mk 660 690 30, Slot.mk 690 720 30],
        g.stop - g.start = 30 ∧ g.duration_minutes = 30 :=
  ⟨by decide,
    find_available_slots_exact_duration 8 0 540 720 (validBusy [(600, 630)]) 30
      true _ (by decide)⟩

/-- Claim C10: every returned slot starts at or after the window start;
and under the additional hypothesis that every busy interval lies
inside the search window, every returned slot ends at or before the
window end. -/
theorem find_available_slots_window_bounds
    (fuel : Nat) (now start_ist end_ist : Int) (busy : List (Int × Int))
    (dur : Int) (bho : Bool) (out : List Slot)
    (h : find_available_slots fuel now start_ist end_ist (validBusy busy) dur
      bho = some out) :
    (∀ g ∈ out, start_ist ≤ g.start) ∧
      ((∀ p ∈ busy, start_ist ≤ p.1 ∧ p.1 ≤ p.2 ∧ p.2 ≤ end_ist) →
        ∀ g ∈ out, g.stop ≤ end_ist) := by
  rw [find_available_slots, Option.map_eq_some'] at h
  obtain ⟨full, hfull, hout⟩ := h
  obtain ⟨slots, c', tail, hscan, hgap, hfulleq⟩ :=
    find_available_slots_all_some _ _ _ _ _ _ _ _ hfull
  rw [parse_validBusy] at hscan
  have hmem : ∀ g ∈ out, g ∈ slots ++ tail := by
    intro g hg
    rw [← hfulleq]
    rw [← hout] at hg
    exact List.mem_of_mem_take hg
  constructor
  · intro g hg
    rcases List.mem_append.mp (hmem g hg) with hg2 | hg2
    · exact ((scan_busy_spec bho dur fuel _ start_ist slots c' hscan).2.2 g hg2).1
    · have hc : c' ≤ g.start :=
        (gap_slots_mem bho dur fuel c' end_ist tail hgap g hg2).1
      have hs : start_ist ≤ c' :=
        (scan_busy_spec bho dur fuel _ start_ist slots c' hscan).1
      omega
  · intro hcont g hg
    rcases List.mem_append.mp (hmem g hg) with hg2 | hg2
    · obtain ⟨h1, h2, h3, h4, p, hp, hps⟩ :=
        (scan_busy_spec bho dur fuel _ start_ist slots c' hscan).2.2 g hg2
      have hpbusy : p ∈ busy := (sort_by_start_perm busy).mem_iff.mp hp
      have := hcont p hpbusy
      omega
    · exact (gap_slots_mem bho dur fuel c' end_ist tail hgap g hg2).2.2.2.1

/-- Witness for C10 at a concrete input. -/
theorem find_available_slots_window_bounds_witness :
    (∀ g ∈ [Slot.mk 540 570 30, Slot.mk 570 600 30, Slot.mk 630 660 30,
      Slot.mk 660 690 30, Slot.mk 690 720 30], (540 : Int) ≤ g.start) ∧
    (∀ g ∈ [Slot.mk 540 570 30, Slot.mk 570 600 30, Slot.mk 630 660 30,
      Slot.mk 660 690 30, Slot.mk 690 720 30], g.stop ≤ (720 : Int)) :=
  have h := find_available_slots_window_bounds 8 0 540 720 [(600, 630)] 30
    true _ (by decide)
  ⟨h.1, h.2 (by decide)⟩

/-- Claim C4 is refuted at this input: the window is degenerate
(`start = end = 0`) yet a busy interval starting after the window start
opens a gap before it, and the per-gap stepping is not clamped to the
window end, so four slots are returned rather than the empty list. -/
theorem find_available_slots_degenerate_window_counterexample :
    find_available_slots 6 0 0 0 (validBusy [(20, 30)]) 5 false ≠ some [] := by
  decide

/-- Amended C4: a degenerate window (`start >= end`) yields the empty
list provided every busy interval starts at or before the window start
(in particular for the empty busy list); a busy interval starting after
the window start can still open a gap and produce slots. -/
theorem find_available_slots_degenerate_window_amended
    (fuel : Nat) (now start_ist end_ist : Int) (busy : List (Int × Int))
    (dur : Int) (bho : Bool)
    (hwin : end_ist ≤ start_ist)
    (hbusy : ∀ p ∈ busy, p.1 ≤ start_ist) :
    find_available_slots fuel now start_ist end_ist (validBusy busy) dur bho =
      some [] := by
  have hmem : ∀ p ∈ sort_by_start busy, p.1 ≤ start_ist := fun p hp =>
    hbusy p ((sort_by_start_perm busy).mem_iff.mp hp)
  obtain ⟨c', hscan, hc⟩ :=
    scan_busy_no_gap bho dur fuel (sort_by_start busy) start_ist hmem
  simp only [find_available_slots, find_available_slots_all, parse_validBusy]
  rw [hscan]
  have hng : ¬ (c' < end_ist) := by omega
  simp [gap_slots, hng]

/-- Witness for the amended C4 at a concrete input. -/
theorem find_available_slots_degenerate_window_amended_witness :
    find_available_slots 3 0 5 3 (validBusy [(2, 10)]) 7 true = some [] :=
  find_available_slots_degenerate_window_amended 3 0 5 3 [(2, 10)] 7 true
    (by decide) (by decide)

/-- Claim C3 is refuted at this input: the busy list contains a
malformed start timestamp, yet the call does not fail — the parser
silently substitutes the current time (`now = 540`, i.e. 09:00) for it,
the busy interval becomes `[540, 600)`, and a two-slot list is
returned.  The source has no error path at all: the `except` branch of
`_parse_datetime_with_timezone` catches the parse failure and returns
`datetime.now`. -/
theorem find_available_slots_malformed_counterexample :
    find_available_slots 8 540 540 660 [(DtStr.malformed, DtStr.valid 600)] 30
      true = some [Slot.mk 600 630 30, Slot.mk 630 660 30] := by
  decide

/-- Amended C3: on an unparseable timestamp the Finder does not fail
and raises no typed error; `_parse_datetime_with_timezone` silently
substitutes the current time, and the whole call behaves exactly as if
every malformed timestamp had been replaced by the current time
beforehand. -/
theorem find_available_slots_malformed_substitutes_now
    (fuel : Nat) (now start_ist end_ist : Int)
    (busy_times : List (DtStr × DtStr)) (dur : Int) (bho : Bool) :
    parse_datetime_with_timezone now DtStr.malformed = now ∧
    find_available_slots fuel now start_ist end_ist
        (busy_times.map (fun b =>
          (substitute_malformed now b.1, substitute_malformed now b.2))) dur
        bho =
      find_available_slots fuel now start_ist end_ist busy_times dur bho := by
  refine ⟨rfl, ?_⟩
  simp only [find_available_slots, find_available_slots_all, List.map_map]
  have hmap : busy_times.map
      ((fun b => (parse_datetime_with_timezone now b.1,
          parse_datetime_with_timezone now b.2)) ∘
        (fun b => (substitute_malformed now b.1, substitute_malformed now b.2))) =
      busy_times.map (fun b => (parse_datetime_with_timezone now b.1,
        parse_datetime_with_timezone now b.2)) :=
    List.map_congr_left fun b _ => rfl
  rw [hmap]

/-- Claim C5 is refuted at this input: the duration is 0 (non-positive)
and the call is not rejected — it computes and returns a slot list (the
empty one, since the degenerate window opens no gap).  The source
contains no validation of `duration_minutes` and no error path. -/
theorem find_available_slots_nonpositive_duration_counterexample :
    find_available_slots 3 0 0 0 (validBusy []) 0 true = some [] := by
  decide

/-- Amended C5: the source never rejects a non-positive duration.
With an empty busy list, if the window is degenerate the call returns
the empty slot list, and otherwise the first stepping loop never
advances its pointer, so the call never returns (every fuel is
exhausted). -/
theorem find_available_slots_nonpositive_duration_amended
    (fuel : Nat) (now start_ist end_ist dur : Int) (bho : Bool)
    (hdur : dur ≤ 0) :
    (end_ist ≤ start_ist →
      find_available_slots fuel now start_ist end_ist (validBusy []) dur bho =
        some []) ∧
    (start_ist < end_ist →
      find_available_slots fuel now start_ist end_ist (validBusy []) dur bho =
        none) := by
  constructor
  · intro hwin
    simp only [find_available_slots, find_available_slots_all, validBusy,
      List.map_nil, sort_by_start, scan_busy]
    rw [gap_slots, if_neg (by omega)]
    rfl
  · intro hwin
    have hgen : generate_slots bho dur end_ist fuel start_ist = none :=
      generate_slots_none_of_nonpos bho dur end_ist hdur fuel start_ist
        (by omega)
    simp only [find_available_slots, find_available_slots_all, validBusy,
      List.map_nil, sort_by_start, scan_busy]
    rw [gap_slots, if_pos hwin, if_pos (by omega), hgen]
    rfl

/-- Witness for the amended C5 at concrete inputs, one per branch. -/
theorem find_available_slots_nonpositive_duration_amended_witness :
    find_available_slots 3 0 5 5 (validBusy []) 0 true = some [] ∧
    find_available_slots 3 0 0 10 (validBusy []) 0 true = none :=
  ⟨(find_available_slots_nonpositive_duration_amended 3 0 5 5 0 true
      (by decide)).1 (by decide),
    (find_available_slots_nonpositive_duration_amended 3 0 0 10 0 true
      (by decide)).2 (by decide)⟩

/-- Claim C7: when `business_hours_only` is true every returned slot
starts at a local (IST) hour `h` with `9 <= h < 18`; when it is false
no slot is excluded by the predicate — the run coincides with the
finder whose business-hours conditional is removed. -/
theorem find_available_slots_business_hours
    (fuel : Nat) (now start_ist end_ist : Int)
    (busy_times : List (DtStr × DtStr)) (dur : Int) (bho : Bool)
    (out : List Slot)
    (h : find_available_slots fuel now start_ist end_ist busy_times dur bho =
      some out) :
    (bho = true → ∀ g ∈ out, 9 ≤ hourOf g.start ∧ hourOf g.start < 18) ∧
    (bho = false →
      find_available_slots_unfiltered fuel now start_ist end_ist busy_times
        dur = some out) := by
  constructor
  · intro hbho
    rw [find_available_slots, Option.map_eq_some'] at h
    obtain ⟨full, hfull, hout⟩ := h
    obtain ⟨slots, c', tail, hscan, hgap, hfulleq⟩ :=
      find_available_slots_all_some _ _ _ _ _ _ _ _ hfull
    intro g hg
    have hgfull : g ∈ slots ++ tail := by
      rw [← hfulleq]
      rw [← hout] at hg
      exact List.mem_of_mem_take hg
    rcases List.mem_append.mp hgfull with hg2 | hg2
    · exact ((scan_busy_spec bho dur fuel _ start_ist slots c' hscan).2.2 g
        hg2).2.2.2.1 hbho
    · exact (gap_slots_mem bho dur fuel c' end_ist tail hgap g hg2).2.2.2.2 hbho
  · intro hbho
    subst hbho
    rw [← find_available_slots_false_eq]
    exact h

/-- Witness for C7 at a concrete input with the filter enabled. -/
theorem find_available_slots_business_hours_witness :
    hourOf 540 = 9 ∧
      ∀ g ∈ [Slot.mk 540 570 30, Slot.mk 570 600 30, Slot.mk 630 660 30,
        Slot.mk 660 690 30, Slot.mk 690 720 30],
        9 ≤ hourOf g.start ∧ hourOf g.start < 18 :=
  ⟨by decide,
    (find_available_slots_business_hours 8 0 540 720 (validBusy [(600, 630)])
      30 true _ (by decide)).1 rfl⟩

/-- Claim C8: the returned list is sorted by start time ascending,
holds at most 10 slots (the hard-coded cap of line 198), and truncation
keeps exactly the earliest slots: the result is the 10-slot prefix of
the untruncated scan and every dropped slot starts at or after every
kept one.  Stated under the specification's input invariants:
well-formed busy intervals (§3's intended `start < end` TimeInterval
invariant, here `start <= end`) and a strictly positive duration
(§4.1's input contract). -/
theorem find_available_slots_sorted_capped
    (fuel : Nat) (now start_ist end_ist : Int) (busy : List (Int × Int))
    (dur : Int) (bho : Bool) (out : List Slot)
    (hdur : 1 ≤ dur) (hwf : ∀ p ∈ busy, p.1 ≤ p.2)
    (h : find_available_slots fuel now start_ist end_ist (validBusy busy) dur
      bho = some out) :
    out.length ≤ 10 ∧ out.Pairwise (fun x y => x.start ≤ y.start) ∧
    ∀ full, find_available_slots_all fuel now start_ist end_ist
        (validBusy busy) dur bho = some full →
      out = full.take 10 ∧
      ∀ d ∈ full.drop 10, ∀ k ∈ out, k.start ≤ d.start := by
  rw [find_available_slots, Option.map_eq_some'] at h
  obtain ⟨full0, hfull0, hout⟩ := h
  obtain ⟨slots, c', tail, hscan, hgap, hfulleq⟩ :=
    find_available_slots_all_some _ _ _ _ _ _ _ _ hfull0
  rw [parse_validBusy] at hscan
  have hwfsorted : ∀ p ∈ sort_by_start busy, p.1 ≤ p.2 := fun p hp =>
    hwf p ((sort_by_start_perm busy).mem_iff.mp hp)
  obtain ⟨hslotspw, hslotsstop⟩ :=
    scan_busy_sorted bho dur fuel hdur (sort_by_start busy) start_ist slots c'
      (sort_by_start_pairwise busy) hwfsorted hscan
  have htailpw := gap_slots_pairwise bho dur fuel c' end_ist hdur tail hgap
  have hcross : ∀ x ∈ slots, ∀ y ∈ tail, x.start ≤ y.start := by
    intro x hx y hy
    have hxc : x.stop ≤ c' := hslotsstop x hx
    have hyc : c' ≤ y.start :=
      (gap_slots_mem bho dur fuel c' end_ist tail hgap y hy).1
    have hxd :=
      ((scan_busy_spec bho dur fuel _ start_ist slots c' hscan).2.2 x hx).2.1
    omega
  have hfullpw : full0.Pairwise (fun x y => x.start ≤ y.start) := by
    rw [hfulleq]
    exact List.pairwise_append.mpr ⟨hslotspw, htailpw, hcross⟩
  refine ⟨?_, ?_, ?_⟩
  · rw [← hout]
    exact List.length_take_le 10 full0
  · rw [← hout]
    exact hfullpw.sublist (List.take_sublist 10 full0)
  · intro full hfull
    rw [hfull0] at hfull
    obtain rfl := Option.some.inj hfull
    refine ⟨hout.symm, ?_⟩
    intro d hd k hk
    have hpw2 : (full0.take 10 ++ full0.drop 10).Pairwise
        (fun x y => x.start ≤ y.start) := by
      rw [List.take_append_drop 10 full0]
      exact hfullpw
    rw [← hout] at hk
    exact (List.pairwise_append.mp hpw2).2.2 k hk d hd

/-- Witness for C8 at a concrete input. -/
theorem find_available_slots_sorted_capped_witness :
    [Slot.mk 540 570 30, Slot.mk 570 600 30, Slot.mk 630 660 30,
      Slot.mk 660 690 30, Slot.mk 690 720 30].length ≤ 10 ∧
    [Slot.mk 540 570 30, Slot.mk 570 600 30, Slot.mk 630 660 30,
      Slot.mk 660 690 30, Slot.mk 690 720 30].Pairwise
      (fun x y => x.start ≤ y.start) :=
  have h := find_available_slots_sorted_capped 8 0 540 720 [(600, 630)] 30
    true _ (by decide) (by decide) (by decide)
  ⟨h.1, h.2.1⟩

/-- Claim C2: pre-merging overlapping busy intervals into their union
leaves the output unchanged (the `max`-based cursor advance already
merges on the fly), and on the specification's example — window
`[09:00, 11:00)`, busy `[[09:00, 10:00), [09:30, 10:30)]`, duration 30
minutes — the only returned slot is `[10:30, 11:00)` (minutes of day:
window `[540, 660)`, busy `[(540, 600), (570, 630)]`, slot
`[630, 660)`). -/
theorem find_available_slots_merge_equiv
    (fuel : Nat) (now start_ist end_ist : Int) (busy : List (Int × Int))
    (dur : Int) (bho : Bool) :
    (find_available_slots fuel now start_ist end_ist (validBusy busy) dur bho =
      find_available_slots fuel now start_ist end_ist
        (validBusy (merge_overlapping (sort_by_start busy))) dur bho) ∧
    find_available_slots 8 0 540 660 (validBusy [(540, 600), (570, 630)]) 30
      true = some [Slot.mk 630 660 30] := by
  constructor
  · simp only [find_available_slots, find_available_slots_all, parse_validBusy]
    rw [sort_by_start_eq_self _
      (merge_overlapping_pairwise _ (sort_by_start_pairwise busy))]
    rw [← scan_busy_merge]
  · decide

/-- Claim C9 (termination): for every window, busy list and duration of
at least one minute, the computation terminates: some fuel (iteration
budget) makes every stepping loop finish, because each iteration
advances the pointer by the positive duration toward its fixed bound
(the next busy start or the window end). -/
theorem find_available_slots_terminates
    (now start_ist end_ist : Int) (busy : List (Int × Int)) (dur : Int)
    (bho : Bool) (hdur : 1 ≤ dur) :
    ∃ fuel, (find_available_slots fuel now start_ist end_ist (validBusy busy)
      dur bho).isSome := by
  refine ⟨max (end_ist - start_ist).toNat
    (busy.foldr (fun q m => max (q.1 - start_ist).toNat m) 0), ?_⟩
  set F := max (end_ist - start_ist).toNat
    (busy.foldr (fun q m => max (q.1 - start_ist).toNat m) 0) with hF
  have hscanhyp : ∀ p ∈ sort_by_start busy, (p.1 - start_ist).toNat ≤ F := by
    intro p hp
    have hpb : p ∈ busy := (sort_by_start_perm busy).mem_iff.mp hp
    exact le_trans
      (le_foldr_max (fun q => (q.1 - start_ist).toNat) busy p hpb)
      (le_max_right _ _)
  obtain ⟨out, c', hscan, hc⟩ :=
    scan_busy_isSome bho dur F hdur (sort_by_start busy) start_ist hscanhyp
  have hgap : (gap_slots bho dur F c' end_ist).isSome := by
    apply gap_slots_isSome bho dur F c' end_ist hdur
    have h1 : (end_ist - c').toNat ≤ (end_ist - start_ist).toNat := by omega
    exact le_trans h1 (le_max_left _ _)
  obtain ⟨tail, hgs⟩ := Option.isSome_iff_exists.mp hgap
  simp only [find_available_slots, find_available_slots_all, parse_validBusy]
  rw [hscan]
  show (Option.map (fun available_slots => List.take 10 available_slots)
      (match gap_slots bho dur F c' end_ist with
      | none => none
      | some tail => some (out ++ tail))).isSome = true
  rw [hgs]
  rfl

/-- Witness for C9 at a concrete input. -/
theorem find_available_slots_terminates_witness :
    ∃ fuel, (find_available_slots fuel 0 540 720 (validBusy [(600, 630)]) 30
      true).isSome :=
  find_available_slots_terminates 0 540 720 [(600, 630)] 30 true (by decide)

end ScheduleAI
